import Mathlib

/-!
Verification of the jsonstore indexing and query-compilation engine.

This development is a shallow embedding of the Python sources, primarily
`branches/0.3_shove/jsonstore/store.py` (the `EntryManager` over a Shove
document store with a SQLite `flat` index table), with the query/flatten
machinery shared by `branches/0.3/jsonstore/backends/sqlite.py`.

Modelling conventions:
  - Python strings are `List Char`; JSON scalars are `Leaf`.
  - `datetime.datetime` values are a `DateTime` structure of calendar fields;
    `datetime_to_iso` is `datetimeToIso` / `isoOfDateTime`.
  - The Shove store (a dict-like id -> entry map) is an association list
    `Store`; SQLite's `flat` table is a `List Row` kept in insertion order.
  - Nondeterministic inputs (`uuid4()`, `datetime.utcnow()`) are explicit
    arguments (`genId`, `now`).
  - Python dict iteration order is modelled as association-list order.
  - Fallible paths (KeyError, strptime validation failure, SQL syntax
    errors) return `Except Err`.
  - `jsonstore/operators.py` is not part of the sources; operator predicates
    are kept abstract: searches are parameterised by an interpretation
    `opSem : OpKind -> List Value -> QLeaf -> Bool` of operator conditions,
    and the operator AST (`OpKind` plus a parameter list) is modelled from
    the spec's closed operator set.
-/

namespace Jsonstore

/-- A scalar leaf value as stored in the index: string, number, or boolean.
(Numbers are modelled as `Int`; the int/float distinction is immaterial to
the claims.) -/
inductive Leaf
  | s (v : List Char)
  | i (v : Int)
  | b (v : Bool)
  deriving DecidableEq

/-- The closed set of operator kinds from the spec's Operator taxonomy
(`Equal, NotEqual, LessThan, LessOrEqual, GreaterThan, GreaterOrEqual,
Like, Regexp`). Modelled from the spec: `jsonstore/operators.py` is not
among the sources; only the tag and the operand list are needed here. -/
inductive OpKind
  | eq | ne | lt | le | gt | ge | like | regexp
  deriving DecidableEq

/-- A `datetime.datetime` value (second precision, as the engine only ever
serialises to second precision). -/
structure DateTime where
  year : Nat
  month : Nat
  day : Nat
  hour : Nat
  minute : Nat
  second : Nat
  deriving DecidableEq

/-- A JSON-like document/query value: scalar, datetime, list, mapping, or an
`Operator` node carrying its operand list (operators occur only in query
keys, but Python imposes no such type distinction, so neither do we). -/
inductive Value
  | leaf (l : Leaf)
  | dt (t : DateTime)
  | arr (xs : List Value)
  | obj (fs : List (List Char × Value))
  | op (k : OpKind) (ps : List Value)

mutual
def beqV : Value → Value → Bool
  | .leaf a, .leaf b => a = b
  | .dt a, .dt b => a = b
  | .arr xs, .arr ys => beqVL xs ys
  | .obj fs, .obj gs => beqVF fs gs
  | .op k ps, .op k' ps' => k = k' && beqVL ps ps'
  | _, _ => false

def beqVL : List Value → List Value → Bool
  | [], [] => true
  | x :: xs, y :: ys => beqV x y && beqVL xs ys
  | _, _ => false

def beqVF : List (List Char × Value) → List (List Char × Value) → Bool
  | [], [] => true
  | (k, v) :: fs, (k', v') :: gs => k = k' && beqV v v' && beqVF fs gs
  | _, _ => false
end

mutual
theorem beqV_iff : ∀ a b, beqV a b = true ↔ a = b
  | .leaf _, .leaf _ => by simp [beqV]
  | .dt _, .dt _ => by simp [beqV]
  | .arr xs, .arr ys => by simp [beqV, beqVL_iff xs ys]
  | .obj fs, .obj gs => by simp [beqV, beqVF_iff fs gs]
  | .op _ ps, .op _ ps' => by simp [beqV, beqVL_iff ps ps']
  | .leaf _, .dt _ => by simp [beqV]
  | .leaf _, .arr _ => by simp [beqV]
  | .leaf _, .obj _ => by simp [beqV]
  | .leaf _, .op _ _ => by simp [beqV]
  | .dt _, .leaf _ => by simp [beqV]
  | .dt _, .arr _ => by simp [beqV]
  | .dt _, .obj _ => by simp [beqV]
  | .dt _, .op _ _ => by simp [beqV]
  | .arr _, .leaf _ => by simp [beqV]
  | .arr _, .dt _ => by simp [beqV]
  | .arr _, .obj _ => by simp [beqV]
  | .arr _, .op _ _ => by simp [beqV]
  | .obj _, .leaf _ => by simp [beqV]
  | .obj _, .dt _ => by simp [beqV]
  | .obj _, .arr _ => by simp [beqV]
  | .obj _, .op _ _ => by simp [beqV]
  | .op _ _, .leaf _ => by simp [beqV]
  | .op _ _, .dt _ => by simp [beqV]
  | .op _ _, .arr _ => by simp [beqV]
  | .op _ _, .obj _ => by simp [beqV]

theorem beqVL_iff : ∀ a b, beqVL a b = true ↔ a = b
  | [], [] => by simp [beqVL]
  | x :: xs, y :: ys => by simp [beqVL, beqV_iff x y, beqVL_iff xs ys]
  | [], _ :: _ => by simp [beqVL]
  | _ :: _, [] => by simp [beqVL]

theorem beqVF_iff : ∀ a b, beqVF a b = true ↔ a = b
  | [], [] => by simp [beqVF]
  | (_, v) :: fs, (_, v') :: gs => by simp [beqVF, beqV_iff v v', beqVF_iff fs gs]
  | [], _ :: _ => by simp [beqVF]
  | _ :: _, [] => by simp [beqVF]
end

instance : DecidableEq Value := fun a b => decidable_of_iff _ (beqV_iff a b)

/-- What the index stores in its `leaf` column / what `flatten` pairs carry:
either a scalar, or (for a query key) an `Operator` with its operands. -/
inductive QLeaf
  | scalar (l : Leaf)
  | oper (k : OpKind) (ps : List Value)
  deriving DecidableEq

/-- `escape(name)`: `name.replace('.', '%2E')` — replaces every literal dot
in a mapping key by the three characters `%2E`. -/
def escape (name : List Char) : List Char :=
  name.flatMap (fun c => if c = '.' then ['%', '2', 'E'] else [c])

/-- `'.'.join(keys)` — the dotted path of a key sequence. -/
def joinPath (keys : List (List Char)) : List Char :=
  List.intercalate ['.'] keys

/-- Left-pad the decimal rendering of `n` with zeros to width `w`. -/
def padNum (w : Nat) (n : Nat) : List Char :=
  let d := Nat.toDigits 10 n
  List.replicate (w - d.length) '0' ++ d

/-- `obj.isoformat().split('.', 1)[0] + 'Z'` for a `datetime`:
`YYYY-MM-DDTHH:MM:SSZ`. -/
def isoOfDateTime (t : DateTime) : List Char :=
  padNum 4 t.year ++ ['-'] ++ padNum 2 t.month ++ ['-'] ++ padNum 2 t.day ++
    ['T'] ++ padNum 2 t.hour ++ [':'] ++ padNum 2 t.minute ++ [':'] ++
    padNum 2 t.second ++ ['Z']

/-- `datetime_to_iso(obj)`: renders a datetime to its ISO-8601 string and
returns every other value unchanged (the Python bare `except` swallows the
`AttributeError` for non-datetimes). -/
def datetimeToIso (v : Value) : Value :=
  match v with
  | .dt t => .leaf (.s (isoOfDateTime t))
  | w => w

mutual
/-- `flatten(obj, keys)` from `store.py`: yields one `(path, leaf)` pair per
scalar reachable from `obj`. Lists recurse with the *same* key sequence
(no positional segment); mappings extend the key sequence with the escaped
key; datetimes become their ISO string; `Operator` values are yielded as-is
after their operand list is rewritten through `datetime_to_iso` (in the
source this rewriting mutates `obj.params` in place). -/
def flatten : Value → List (List Char) → List (List Char × QLeaf)
  | .arr xs, keys => flattenList xs keys
  | .obj fs, keys => flattenObj fs keys
  | .dt t, keys => [(joinPath keys, .scalar (.s (isoOfDateTime t)))]
  | .op k ps, keys => [(joinPath keys, .oper k (ps.map datetimeToIso))]
  | .leaf l, keys => [(joinPath keys, .scalar l)]

/-- `flatten` over the items of a list (`for item in obj: flatten(item, keys)`). -/
def flattenList : List Value → List (List Char) → List (List Char × QLeaf)
  | [], _ => []
  | x :: xs, keys => flatten x keys ++ flattenList xs keys

/-- `flatten` over the fields of a mapping
(`for k, v in obj.items(): flatten(v, keys + [escape(k)])`). -/
def flattenObj : List (List Char × Value) → List (List Char) → List (List Char × QLeaf)
  | [], _ => []
  | (k, v) :: fs, keys => flatten v (keys ++ [escape k]) ++ flattenObj fs keys
end

mutual
/-- Number of pairs `flatten` is specified to yield: one per scalar leaf
(a datetime is a scalar leaf; an `Operator` node is yielded whole, like a
scalar — document bodies contain no operator nodes). -/
def leafCount : Value → Nat
  | .arr xs => leafCountL xs
  | .obj fs => leafCountF fs
  | .dt _ => 1
  | .op _ _ => 1
  | .leaf _ => 1

def leafCountL : List Value → Nat
  | [] => 0
  | x :: xs => leafCount x + leafCountL xs

def leafCountF : List (List Char × Value) → Nat
  | [] => 0
  | (_, v) :: fs => leafCount v + leafCountF fs
end

/-! ## Dict and store primitives -/

/-- A Python dict of string keys (an entry body or a query key), modelled as
an association list in insertion order. Dicts built by the engine have
unique keys. -/
abbrev Assoc := List (List Char × Value)

/-- The Shove document store: an id -> entry map in insertion order.
Ids are whatever value sits under `__id__` (a string in practice). -/
abbrev Store := List (Value × Assoc)

/-- `d[k]` lookup returning `None`-like absence: first binding wins. -/
def lookupA : Assoc → List Char → Option Value
  | [], _ => none
  | (k, v) :: rest, key => if k = key then some v else lookupA rest key

/-- `d.pop(k, None)` / `del d[k]` on a dict: drop the binding for `key`. -/
def eraseKeyA (m : Assoc) (key : List Char) : Assoc :=
  m.filter (fun p => decide (p.1 ≠ key))

/-- `d.setdefault(k, v)`: returns the existing value if `k` is bound,
otherwise appends the binding `(k, v)`; paired with the updated dict. -/
def setdefaultA (m : Assoc) (key : List Char) (v : Value) : Value × Assoc :=
  match lookupA m key with
  | some w => (w, m)
  | none => (v, m ++ [(key, v)])

/-- `store[id]` lookup. -/
def lookupS : Store → Value → Option Assoc
  | [], _ => none
  | (k, v) :: rest, key => if k = key then some v else lookupS rest key

/-- `store[id] = entry`: replace in place if the id exists, else append. -/
def putS (s : Store) (key : Value) (e : Assoc) : Store :=
  if (lookupS s key).isSome then
    s.map (fun p => if p.1 = key then (key, e) else p)
  else s ++ [(key, e)]

/-- `del store[id]`. -/
def eraseS (s : Store) (key : Value) : Store :=
  s.filter (fun p => decide (p.1 ≠ key))

/-- The entry keys `'__id__'` and `'__updated__'`. -/
def idKey : List Char := "__id__".toList

def updKey : List Char := "__updated__".toList

/-- A row of the SQLite `flat` table: `(id, position, leaf)`. -/
structure Row where
  id : Value
  pos : List Char
  leaf : QLeaf
  deriving DecidableEq

/-- `time.strptime(s, '%Y-%m-%dT%H:%M:%SZ')` succeeds: exactly the 20-char
shape `YYYY-MM-DDTHH:MM:SSZ` with in-range calendar fields (`strptime`
accepts seconds up to 61 for leap seconds). -/
def isIso (s : List Char) : Bool :=
  match s with
  | [y1, y2, y3, y4, c1, m1, m2, c2, d1, d2, c3, h1, h2, c4, n1, n2, c5, s1, s2, c6] =>
    [y1, y2, y3, y4, m1, m2, d1, d2, h1, h2, n1, n2, s1, s2].all
        (fun c => '0' ≤ c && c ≤ '9') &&
      (c1 = '-' && c2 = '-' && c3 = 'T' && c4 = ':' && c5 = ':' && c6 = 'Z') &&
      (let dv := fun (a b : Char) => 10 * (a.toNat - 48) + (b.toNat - 48)
       1 ≤ dv m1 m2 && dv m1 m2 ≤ 12 && 1 ≤ dv d1 d2 && dv d1 d2 ≤ 31 &&
         dv h1 h2 ≤ 23 && dv n1 n2 ≤ 59 && dv s1 s2 ≤ 61)
  | _ => false

/-- The `__updated__` validation in `create`: a `datetime` passes untouched;
anything else is fed to `strptime`, which demands a well-formed ISO string
(a non-string raises `TypeError`, a malformed string `ValueError`). -/
def validUpdated : Value → Bool
  | .dt _ => true
  | .leaf (.s s) => isIso s
  | _ => false

/-- Engine failures: `KeyError` from a dict lookup, a `strptime` failure in
`create`, and SQLite's rejection of `OFFSET` without `LIMIT`. -/
inductive Err
  | keyError
  | badTimestamp
  | sqlSyntax
  deriving DecidableEq

/-- The `EntryManager`'s state: the Shove document store plus the SQLite
`flat` index table (rows in insertion order). -/
structure State where
  store : Store
  flat : List Row
  deriving DecidableEq

/-- `index_entry(entry)`: every `flatten(entry)` pair whose path is not
`'__id__'` becomes a row tagged with `entry['__id__']` (entries produced by
`create` always carry `__id__`; `getD` stands for that established lookup). -/
def indexRows (e : Assoc) : List Row :=
  (flattenObj e []).filterMap (fun pr =>
    if pr.1 = idKey then none
    else some ⟨(lookupA e idKey).getD (Value.leaf (.s [])), pr.1, pr.2⟩)

/-- `id_ = entry.setdefault('__id__', str(uuid4()))` paired with the dict
it leaves behind. -/
def entryWithId (entry : Assoc) (genId : List Char) : Value × Assoc :=
  setdefaultA entry idKey (.leaf (.s genId))

/-- `updated = entry.setdefault('__updated__', datetime.utcnow())` applied
after the id default: the updated value paired with the final dict. -/
def entryFull (entry : Assoc) (genId : List Char) (now : DateTime) :
    Value × Assoc :=
  setdefaultA (entryWithId entry genId).2 updKey (.dt now)

/-- The id `create` will store under: the result of
`entry.setdefault('__id__', str(uuid4()))`. -/
def createdId (entry : Assoc) (genId : List Char) : Value :=
  (entryWithId entry genId).1

/-- `EntryManager.create(entry)`: defaults `__id__` to a fresh uuid and
`__updated__` to now, validates the updated value (via `strptime` when it
is not a `datetime`), writes the entry to the store under the id — with no
existence check — and appends the entry's index rows. Returns the entry. -/
def create (st : State) (entry : Assoc) (genId : List Char) (now : DateTime) :
    Except Err (State × Assoc) :=
  if validUpdated (entryFull entry genId now).1 then
    .ok ({ store := putS st.store (createdId entry genId) (entryFull entry genId now).2,
           flat := st.flat ++ indexRows (entryFull entry genId now).2 },
         (entryFull entry genId now).2)
  else .error .badTimestamp

/-- `EntryManager.delete(key)`: `del self.store[key]` (KeyError when absent)
and `DELETE FROM flat WHERE id=key`. -/
def delete (st : State) (key : Value) : Except Err State :=
  if (lookupS st.store key).isSome then
    .ok { store := eraseS st.store key,
          flat := st.flat.filter (fun r => decide (r.id ≠ key)) }
  else .error .keyError

/-- The rows `reindex` regenerates: `index_entry(self.store[entry])` for
every stored entry, in store order. -/
def regen (s : Store) : List Row :=
  s.flatMap (fun p => indexRows p.2)

/-- `EntryManager.reindex()`: `DELETE FROM flat` then re-index every stored
entry. The document store is untouched. -/
def reindex (st : State) : State :=
  { st with flat := regen st.store }

/-! ## Search -/

/-- First-occurrence deduplication, with the set of already-emitted
elements as accumulator. -/
def dedupSeen [DecidableEq α] (seen : List α) : List α → List α
  | [] => []
  | x :: xs => if x ∈ seen then dedupSeen seen xs else x :: dedupSeen (x :: seen) xs

/-- First-occurrence deduplication: the order in which SQLite's
`SELECT DISTINCT` emits ids for a plain table scan. -/
def dedupFirst [DecidableEq α] (l : List α) : List α :=
  dedupSeen [] l

/-- One compiled condition `(position=? AND leaf <op>)`: the queried path
paired with the boolean predicate the operator denotes on a row's leaf. -/
abbrev Pred := List Char × (QLeaf → Bool)

/-- A row satisfies the `WHERE` clause when it satisfies *any* of the
compiled conditions (the generated SQL nests the `OR`s by path group, but
an `OR` of `OR`s is one flat `OR`). -/
def rowMatches (preds : List Pred) (r : Row) : Bool :=
  preds.any (fun pr => decide (r.pos = pr.1) && pr.2 r.leaf)

/-- The id query `EntryManager.search` compiles and runs, in output order:
`SELECT DISTINCT id FROM flat [WHERE [id=?] [AND] [(conditions)]]
[GROUP BY id HAVING COUNT(*)=leaves]`. With conditions present, the per-id
`COUNT(*)` counts the rows that survived the `WHERE` clause, and only ids
whose count equals the total number of compiled conditions survive. -/
def searchIds (rows : List Row) (idOpt : Option Value) (preds : List Pred) :
    List Value :=
  let rows1 := match idOpt with
    | some i => rows.filter (fun (r : Row) => decide (r.id = i))
    | none => rows
  let rows2 := if preds.isEmpty then rows1 else rows1.filter (rowMatches preds)
  let ids := dedupFirst (rows2.map Row.id)
  if preds.isEmpty then ids
  else ids.filter (fun i =>
    decide (rows2.countP (fun (r : Row) => decide (r.id = i)) = preds.length))

/-- Compile one flattened query pair into its condition: a bare scalar is
wrapped in `Equal` (leaf equality); an operator defers to the operator
interpretation `opSem`. -/
def toPred (opSem : OpKind → List Value → QLeaf → Bool)
    (pr : List Char × QLeaf) : Pred :=
  (pr.1, fun lf => match pr.2 with
    | .scalar l => decide (lf = QLeaf.scalar l)
    | .oper k ps => opSem k ps lf)

/-- `LIMIT size OFFSET offset` semantics (skip `offset`, then keep `size`). -/
def paginate (ids : List Value) (size : Option Nat) (offset : Nat) : List Value :=
  match size with
  | some n => (ids.drop offset).take n
  | none => ids.drop offset

/-- `[self.store[row[0]] for row in curs]`: a store miss raises `KeyError`
and aborts the whole search. -/
def materialize (s : Store) : List Value → Except Err (List Assoc)
  | [] => .ok []
  | i :: ids =>
    match lookupS s i with
    | some e => (materialize s ids).map (fun rest => e :: rest)
    | none => .error Err.keyError

mutual
/-- The value a query key holds after a search, modelling `flatten`'s
in-place rewrite of every visited `Operator`'s `params` through
`datetime_to_iso` (`flatten` recurses into lists and mappings but not into
operator operands). -/
def normV : Value → Value
  | .leaf l => .leaf l
  | .dt t => .dt t
  | .arr xs => .arr (normL xs)
  | .obj fs => .obj (normF fs)
  | .op k ps => .op k (ps.map datetimeToIso)

def normL : List Value → List Value
  | [] => []
  | x :: xs => normV x :: normL xs

def normF : Assoc → Assoc
  | [] => []
  | (k, v) :: fs => (k, normV v) :: normF fs
end

/-- `EntryManager.search(obj, size, offset)` (materializing mode): pops
`__id__` from the caller's query dict, flattens the rest into compiled
conditions, runs the id query, paginates (SQLite refuses `OFFSET` with no
`LIMIT`), and materializes each id through a store lookup. The second
component is the caller's query dict after the call (`__id__` popped,
operator operands rewritten in place by `flatten`); the source returns only
the entry list, mutating `obj` as a side effect. -/
def searchFull (opSem : OpKind → List Value → QLeaf → Bool) (st : State)
    (obj : Assoc) (size : Option Nat) (offset : Nat) :
    Except Err (List Assoc) × Assoc :=
  let idOpt := lookupA obj idKey
  let obj1 := eraseKeyA obj idKey
  let preds := (flattenObj obj1 []).map (toPred opSem)
  let ids := searchIds st.flat idOpt preds
  let res : Except Err (List Assoc) :=
    if size = none ∧ offset ≠ 0 then .error .sqlSyntax
    else materialize st.store (paginate ids size offset)
  (res, normF obj1)

/-- A trivial operator interpretation (no row satisfies any operator
condition); used to instantiate concrete searches that contain no
operators, where the interpretation is irrelevant. -/
def opSemNone : OpKind → List Value → QLeaf → Bool := fun _ _ _ => false

/-- States reachable through the public API used as specified: the fresh
store, non-colliding `create`s (the spec requires client-supplied ids to be
collision-free), and `delete`s of present ids. -/
inductive Reachable : State → Prop
  | empty : Reachable ⟨[], []⟩
  | create_step (st : State) (entry : Assoc) (genId : List Char) (now : DateTime)
      (st' : State) (ret : Assoc) :
      Reachable st →
      lookupS st.store (createdId entry genId) = none →
      create st entry genId now = .ok (st', ret) →
      Reachable st'
  | delete_step (st : State) (key : Value) (st' : State) :
      Reachable st →
      delete st key = .ok st' →
      Reachable st'

/-! ## Regular expressions

The `regexp` SQL function registered on every connection is
`re.compile(expr).match(item) is not None`. We embed the regular-expression
core (literal, wildcard, alternation, concatenation, Kleene star — enough
for patterns such as `a.*z`) as an AST with its standard language
semantics, and Python's matcher by Brzozowski derivatives. `re.match`
anchors only at the start of the string: it succeeds iff the pattern
matches some prefix. -/

/-- A compiled regular expression (`re.compile(expr)`). -/
inductive Re
  | nothing
  | eps
  | chr (c : Char)
  | anyc
  | alt (a b : Re)
  | cat (a b : Re)
  | star (a : Re)
  deriving DecidableEq

/-- The language of a regular expression. -/
inductive ReLang : Re → List Char → Prop
  | eps : ReLang .eps []
  | chr (c : Char) : ReLang (.chr c) [c]
  | anyc (c : Char) : ReLang .anyc [c]
  | altL {a b : Re} {s : List Char} : ReLang a s → ReLang (.alt a b) s
  | altR {a b : Re} {s : List Char} : ReLang b s → ReLang (.alt a b) s
  | cat {a b : Re} {s1 s2 : List Char} :
      ReLang a s1 → ReLang b s2 → ReLang (.cat a b) (s1 ++ s2)
  | starNil (a : Re) : ReLang (.star a) []
  | starCons {a : Re} {s1 s2 : List Char} :
      ReLang a s1 → ReLang (.star a) s2 → ReLang (.star a) (s1 ++ s2)

/-- Does the expression accept the empty string? -/
def nullable : Re → Bool
  | .nothing => false
  | .eps => true
  | .chr _ => false
  | .anyc => false
  | .alt a b => nullable a || nullable b
  | .cat a b => nullable a && nullable b
  | .star _ => true

/-- Brzozowski derivative with respect to one character. -/
def deriv : Re → Char → Re
  | .nothing, _ => .nothing
  | .eps, _ => .nothing
  | .chr c, d => if c = d then .eps else .nothing
  | .anyc, _ => .eps
  | .alt a b, d => .alt (deriv a d) (deriv b d)
  | .cat a b, d =>
    if nullable a then .alt (.cat (deriv a d) b) (deriv b d)
    else .cat (deriv a d) b
  | .star a, d => .cat (deriv a d) (.star a)

/-- Full match: the expression consumes the entire string
(`re.fullmatch` semantics, the spec's "full regular-expression match"). -/
def matchFull (e : Re) : List Char → Bool
  | [] => nullable e
  | c :: s => matchFull (deriv e c) s

/-- Start-anchored match: the expression consumes some prefix of the
string (`re.match` semantics). -/
def matchPre (e : Re) : List Char → Bool
  | [] => nullable e
  | c :: s => nullable e || matchPre (deriv e c) s

/-- The `regexp(expr, item)` function from `store.py`:
`re.compile(expr).match(item) is not None`. -/
def regexp (expr : Re) (item : List Char) : Bool :=
  matchPre expr item

/-! ## Path unescaping (used to analyse `escape`'s injectivity) -/

/-- The escape sequence `escape` substitutes for a literal dot. -/
def escSeq : List Char := ['%', '2', 'E']

/-- Greedy decoder for `escape`: turns every `%2E` back into a dot. -/
def unescape : List Char → List Char
  | c :: d :: e :: rest =>
    if c = '%' ∧ d = '2' ∧ e = 'E' then '.' :: unescape rest
    else c :: unescape (d :: e :: rest)
  | l => l

/-- The dotted path a sequence of mapping keys flattens to. -/
def pathOfKeys (ks : List (List Char)) : List Char :=
  joinPath (ks.map escape)

/-! ## Lemmas about `flatten` -/

theorem flatten_length : ∀ (v : Value) (keys), (flatten v keys).length = leafCount v :=
  flatten.induct
    (fun v keys => (flatten v keys).length = leafCount v)
    (fun fs keys => (flattenObj fs keys).length = leafCountF fs)
    (fun xs keys => (flattenList xs keys).length = leafCountL xs)
    (fun _ _ ih => by simpa [flatten, leafCount] using ih)
    (fun _ _ ih => by simpa [flatten, leafCount] using ih)
    (fun _ _ => by simp [flatten, leafCount])
    (fun _ _ _ => by simp [flatten, leafCount])
    (fun _ _ => by simp [flatten, leafCount])
    (fun _ => by simp [flattenList, leafCountL])
    (fun x xs keys ih1 ih2 => by simp [flattenList, leafCountL, ih1, ih2])
    (fun _ => by simp [flattenObj, leafCountF])
    (fun k v fs keys ih1 ih2 => by simp [flattenObj, leafCountF, ih1, ih2])

theorem flattenList_eq_flatMap (xs : List Value) (keys : List (List Char)) :
    flattenList xs keys = xs.flatMap (fun x => flatten x keys) := by
  induction xs with
  | nil => simp [flattenList]
  | cons x xs ih => simp [flattenList, ih]

theorem flattenList_scalars (ls : List Leaf) (keys : List (List Char)) :
    flattenList (ls.map Value.leaf) keys =
      ls.map (fun l => (joinPath keys, QLeaf.scalar l)) := by
  induction ls with
  | nil => simp [flattenList]
  | cons l ls ih => simp [flattenList, flatten, ih]

/-! ## Lemmas about the regular-expression matcher -/

theorem cat_inv {a b : Re} {t : List Char} (h : ReLang (.cat a b) t) :
    ∃ s1 s2, t = s1 ++ s2 ∧ ReLang a s1 ∧ ReLang b s2 := by
  cases h with
  | cat h1 h2 => exact ⟨_, _, rfl, h1, h2⟩

theorem nullable_iff : ∀ e : Re, nullable e = true ↔ ReLang e [] := by
  intro e
  induction e with
  | nothing =>
    simp only [nullable, Bool.false_eq_true, false_iff]
    intro h; cases h
  | eps => simp only [nullable, true_iff]; exact .eps
  | chr c =>
    simp only [nullable, Bool.false_eq_true, false_iff]
    intro h; cases h
  | anyc =>
    simp only [nullable, Bool.false_eq_true, false_iff]
    intro h; cases h
  | alt a b iha ihb =>
    simp only [nullable, Bool.or_eq_true, iha, ihb]
    constructor
    · rintro (h | h)
      · exact .altL h
      · exact .altR h
    · intro h
      cases h with
      | altL h => exact Or.inl h
      | altR h => exact Or.inr h
  | cat a b iha ihb =>
    simp only [nullable, Bool.and_eq_true, iha, ihb]
    constructor
    · rintro ⟨h1, h2⟩
      exact (List.nil_append []) ▸ ReLang.cat h1 h2
    · intro h
      obtain ⟨s1, s2, hs, h1, h2⟩ := cat_inv h
      obtain ⟨e1, e2⟩ := List.append_eq_nil.mp hs.symm
      subst e1; subst e2
      exact ⟨h1, h2⟩
  | star a _ =>
    simp only [nullable, true_iff]
    exact .starNil a

theorem deriv_sound : ∀ (e : Re) (c : Char) (s : List Char),
    ReLang (deriv e c) s → ReLang e (c :: s) := by
  intro e c
  induction e with
  | nothing => intro s h; simp only [deriv] at h; cases h
  | eps => intro s h; simp only [deriv] at h; cases h
  | chr c0 =>
    intro s h
    simp only [deriv] at h
    split at h
    · rename_i he
      cases h
      subst he
      exact ReLang.chr c0
    · cases h
  | anyc =>
    intro s h
    simp only [deriv] at h
    cases h
    exact .anyc c
  | alt a b iha ihb =>
    intro s h
    simp only [deriv] at h
    cases h with
    | altL h => exact .altL (iha _ h)
    | altR h => exact .altR (ihb _ h)
  | cat a b iha ihb =>
    intro s h
    simp only [deriv] at h
    split at h
    · rename_i hn
      cases h with
      | altL h =>
        cases h with
        | cat h1 h2 => exact ReLang.cat (iha _ h1) h2
      | altR h =>
        have ha : ReLang a [] := (nullable_iff a).mp hn
        exact ReLang.cat ha (ihb _ h)
    · cases h with
      | cat h1 h2 => exact ReLang.cat (iha _ h1) h2
  | star a iha =>
    intro s h
    simp only [deriv] at h
    cases h with
    | cat h1 h2 => exact ReLang.starCons (iha _ h1) h2

theorem star_chunk : ∀ {e : Re} {t : List Char}, ReLang e t → ∀ a : Re, e = .star a →
    t = [] ∨ ∃ s1 s2, t = s1 ++ s2 ∧ s1 ≠ [] ∧ ReLang a s1 ∧ ReLang (.star a) s2 := by
  intro e t h
  induction h with
  | eps => intro a he; cases he
  | chr => intro a he; cases he
  | anyc => intro a he; cases he
  | altL _ _ => intro a he; cases he
  | altR _ _ => intro a he; cases he
  | cat _ _ _ _ => intro a he; cases he
  | starNil a0 => intro a he; exact Or.inl rfl
  | @starCons a0 s1 s2 h1 h2 ih1 ih2 =>
    intro a he
    injection he with ha
    subst ha
    by_cases hs : s1 = []
    · subst hs
      simpa using ih2 a0 rfl
    · exact Or.inr ⟨s1, s2, rfl, hs, h1, h2⟩

theorem deriv_complete : ∀ (e : Re) (c : Char) (s : List Char),
    ReLang e (c :: s) → ReLang (deriv e c) s := by
  intro e c
  induction e with
  | nothing => intro s h; cases h
  | eps => intro s h; cases h
  | chr c0 =>
    intro s h
    cases h
    simp only [deriv, if_pos rfl]
    exact .eps
  | anyc =>
    intro s h
    cases h
    simp only [deriv]
    exact .eps
  | alt a b iha ihb =>
    intro s h
    simp only [deriv]
    cases h with
    | altL h => exact .altL (iha _ h)
    | altR h => exact .altR (ihb _ h)
  | cat a b iha ihb =>
    intro s h
    obtain ⟨s1, s2, hs, h1, h2⟩ := cat_inv h
    cases s1 with
    | nil =>
      have hn : nullable a = true := (nullable_iff a).mpr h1
      simp only [List.nil_append] at hs
      subst hs
      simp only [deriv, if_pos hn]
      exact .altR (ihb _ h2)
    | cons c1 s1 =>
      rw [List.cons_append] at hs
      injection hs with hc hsrest
      subst hc
      subst hsrest
      have hd := iha _ h1
      by_cases hn : nullable a = true
      · simp only [deriv, if_pos hn]
        exact .altL (ReLang.cat hd h2)
      · simp only [deriv, if_neg hn]
        exact ReLang.cat hd h2
  | star a iha =>
    intro s h
    rcases star_chunk h a rfl with hnil | ⟨s1, s2, hs, hne, h1, h2⟩
    · exact absurd hnil (List.cons_ne_nil c s)
    · cases s1 with
      | nil => exact absurd rfl hne
      | cons c1 s1 =>
        rw [List.cons_append] at hs
        injection hs with hc hsrest
        subst hc
        subst hsrest
        simp only [deriv]
        exact ReLang.cat (iha _ h1) h2

theorem matchFull_iff : ∀ (s : List Char) (e : Re), matchFull e s = true ↔ ReLang e s := by
  intro s
  induction s with
  | nil => intro e; simpa only [matchFull] using nullable_iff e
  | cons c s ih =>
    intro e
    rw [show matchFull e (c :: s) = matchFull (deriv e c) s from rfl, ih]
    exact ⟨deriv_sound e c s, deriv_complete e c s⟩

theorem matchPre_iff : ∀ (s : List Char) (e : Re),
    matchPre e s = true ↔ ∃ p, p <+: s ∧ ReLang e p := by
  intro s
  induction s with
  | nil =>
    intro e
    simp only [matchPre, nullable_iff]
    constructor
    · intro h; exact ⟨[], ⟨[], rfl⟩, h⟩
    · rintro ⟨p, hp, hl⟩
      obtain ⟨t, ht⟩ := hp
      obtain ⟨e1, _⟩ := List.append_eq_nil.mp ht
      subst e1
      exact hl
  | cons c s ih =>
    intro e
    rw [show matchPre e (c :: s) = (nullable e || matchPre (deriv e c) s) from rfl]
    simp only [Bool.or_eq_true, nullable_iff, ih]
    constructor
    · rintro (h | ⟨p, hp, hl⟩)
      · exact ⟨[], ⟨c :: s, rfl⟩, h⟩
      · obtain ⟨t, ht⟩ := hp
        exact ⟨c :: p, ⟨t, by rw [List.cons_append, ht]⟩, deriv_sound e c p hl⟩
    · rintro ⟨p, hp, hl⟩
      cases p with
      | nil => exact Or.inl hl
      | cons c1 p =>
        obtain ⟨t, ht⟩ := hp
        rw [List.cons_append] at ht
        injection ht with hc hrest
        subst hc
        exact Or.inr ⟨p, ⟨t, hrest⟩, deriv_complete e c1 p hl⟩

/-! ## Claim C7 -/

/-- C7: `flatten` yields one `(path, scalar)` pair per scalar leaf reachable
from the value; list elements contribute no positional path segment (every
element of a list flattens against the same key sequence), so a list of `n`
scalars under key `k` yields `n` pairs, all with the path of `k`. -/
theorem C7_flatten_one_pair_per_leaf :
    (∀ (v : Value) (keys), (flatten v keys).length = leafCount v)
  ∧ (∀ (xs : List Value) (keys),
      flatten (.arr xs) keys = xs.flatMap (fun x => flatten x keys))
  ∧ (∀ (k : List Char) (ls : List Leaf) (keys),
      flatten (.obj [(k, .arr (ls.map Value.leaf))]) keys =
        ls.map (fun l => (joinPath (keys ++ [escape k]), QLeaf.scalar l))) := by
  refine ⟨flatten_length, ?_, ?_⟩
  · intro xs keys
    rw [show flatten (.arr xs) keys = flattenList xs keys from rfl]
    exact flattenList_eq_flatMap xs keys
  · intro k ls keys
    rw [show flatten (.obj [(k, .arr (ls.map Value.leaf))]) keys =
          flattenObj [(k, .arr (ls.map Value.leaf))] keys from rfl]
    simp only [flattenObj, flatten, List.append_nil]
    exact flattenList_scalars ls (keys ++ [escape k])

/-! ## Claim C6 -/

/-- C6 counterexample: the claim states that `regexp` decides a *full*
regular-expression match, but `re.match` only anchors at the start: the
pattern `a` matches the string `ab` under `regexp` even though `a` does not
fully match `ab`. -/
theorem C6_counterexample :
    regexp (Re.chr 'a') ['a', 'b'] = true
  ∧ matchFull (Re.chr 'a') ['a', 'b'] = false
  ∧ ¬ ReLang (Re.chr 'a') ['a', 'b'] := by
  refine ⟨rfl, rfl, fun h => ?_⟩
  exact absurd ((matchFull_iff ['a', 'b'] (Re.chr 'a')).mpr h) (by decide)

/-- C6 (amended): the `regexp` function implements Python `re.match`
semantics — it matches a leaf iff the pattern matches some *initial
segment* of the leaf's string form (anchored at the start only), not
necessarily the whole string. A pattern that ends in an end anchor (or
otherwise only matches full strings) therefore behaves as a full match,
as in the spec's `^a.*z$` example. -/
theorem C6_regexp_start_anchored :
    ∀ (e : Re) (s : List Char),
      regexp e s = true ↔ ∃ p, p <+: s ∧ ReLang e p :=
  fun e s => matchPre_iff s e

/-! ## Lemmas about `escape` and `unescape` -/

theorem escape_cons (u : Char) (t : List Char) :
    escape (u :: t) = (if u = '.' then escSeq else [u]) ++ escape t := by
  simp only [escape, List.flatMap_cons, escSeq]

theorem escape_eq_nil {t : List Char} : escape t = [] ↔ t = [] := by
  cases t with
  | nil => simp [escape]
  | cons u t =>
    rw [escape_cons]
    constructor
    · intro h
      obtain ⟨h1, _⟩ := List.append_eq_nil.mp h
      split at h1 <;> cases h1
    · intro h; cases h

theorem dot_not_mem_escape (t : List Char) : '.' ∉ escape t := by
  induction t with
  | nil => simp [escape]
  | cons u t ih =>
    by_cases hu : u = '.'
    · subst hu
      rw [escape_cons, if_pos rfl]
      intro hmem
      rcases List.mem_append.mp hmem with h | h
      · rw [show escSeq = ['%', '2', 'E'] from rfl] at h
        exact absurd h (by decide)
      · exact ih h
    · rw [escape_cons, if_neg hu]
      intro hmem
      rcases List.mem_append.mp hmem with h | h
      · rw [List.mem_singleton] at h
        exact hu h.symm
      · exact ih h

theorem unescape_cons3 (c d e : Char) (rest : List Char) :
    unescape (c :: d :: e :: rest) =
      if c = '%' ∧ d = '2' ∧ e = 'E' then '.' :: unescape rest
      else c :: unescape (d :: e :: rest) := rfl

theorem unescape_cons_of (c : Char) (l : List Char)
    (h : ∀ d e r, l = d :: e :: r → ¬(c = '%' ∧ d = '2' ∧ e = 'E')) :
    unescape (c :: l) = c :: unescape l := by
  match l with
  | [] => rfl
  | [d] => rfl
  | d :: e :: r =>
    rw [unescape_cons3, if_neg (h d e r rfl)]

theorem escape_starts_2E {t r : List Char} (h : escape t = '2' :: 'E' :: r) :
    ∃ t', t = '2' :: 'E' :: t' ∧ escape t' = r := by
  cases t with
  | nil => simp [escape] at h
  | cons u t1 =>
    rw [escape_cons] at h
    split at h
    · simp [escSeq] at h
    · rw [List.singleton_append] at h
      injection h with hu h1
      subst hu
      cases t1 with
      | nil => simp [escape] at h1
      | cons v t2 =>
        rw [escape_cons] at h1
        split at h1
        · simp [escSeq] at h1
        · rw [List.singleton_append] at h1
          injection h1 with hv h2
          subst hv
          exact ⟨t2, rfl, h2⟩

theorem unescape_escape : ∀ {k : List Char}, ¬(escSeq <:+: k) →
    unescape (escape k) = k := by
  intro k
  induction k with
  | nil => intro _; rfl
  | cons c t ih =>
    intro hinf
    have hinf_t : ¬(escSeq <:+: t) := fun h => hinf (List.infix_cons_iff.mpr (Or.inr h))
    by_cases hc : c = '.'
    · subst hc
      rw [escape_cons, if_pos rfl]
      show unescape ('%' :: '2' :: 'E' :: escape t) = '.' :: t
      rw [unescape_cons3, if_pos ⟨rfl, rfl, rfl⟩, ih hinf_t]
    · rw [escape_cons, if_neg hc, List.singleton_append]
      rw [unescape_cons_of c (escape t) ?_, ih hinf_t]
      intro d e r hdr hces
      obtain ⟨hcp, hd, he⟩ := hces
      subst hcp; subst hd; subst he
      obtain ⟨t', ht', _⟩ := escape_starts_2E hdr
      subst ht'
      exact hinf ⟨[], t', by simp [escSeq]⟩

theorem escape_inj {k1 k2 : List Char} (h1 : ¬(escSeq <:+: k1))
    (h2 : ¬(escSeq <:+: k2)) (he : escape k1 = escape k2) : k1 = k2 := by
  rw [← unescape_escape h1, ← unescape_escape h2, he]

/-! ## Claim C8 -/

/-- C8 counterexample: the escaping is *not* collision-free, because the
replacement `%2E` is not reserved — a key that already contains the literal
characters `%2E` collides with a key containing a dot: the distinct key
sequences `["a.b"]` and `["a%2Eb"]` produce the same dotted path. -/
theorem C8_counterexample :
    pathOfKeys [['a', '.', 'b']] = pathOfKeys [['a', '%', '2', 'E', 'b']]
  ∧ (['a', '.', 'b'] : List Char) ≠ ['a', '%', '2', 'E', 'b'] := by
  constructor
  · rfl
  · decide

/-- C8 (amended): restricted to nonempty key sequences whose keys do not
already contain the escape sequence `%2E`, the mapping from key sequences
to dotted paths is injective: escaping leaves every segment dot-free, so
the path splits unambiguously on dots, and each segment decodes uniquely. -/
theorem C8_escaped_paths_injective :
    ∀ (ks1 ks2 : List (List Char)),
      ks1 ≠ [] → ks2 ≠ [] →
      (∀ k ∈ ks1, ¬(escSeq <:+: k)) →
      (∀ k ∈ ks2, ¬(escSeq <:+: k)) →
      pathOfKeys ks1 = pathOfKeys ks2 → ks1 = ks2 := by
  intro ks1 ks2 hn1 hn2 hf1 hf2 hp
  have hdot : ∀ (ks : List (List Char)), ∀ l ∈ ks.map escape, '.' ∉ l := by
    intro ks l hl
    obtain ⟨k, _, hk⟩ := List.mem_map.mp hl
    rw [← hk]
    exact dot_not_mem_escape k
  have hsplit1 :=
    List.splitOn_intercalate (ks1.map escape) '.' (hdot ks1) (by simpa using hn1)
  have hsplit2 :=
    List.splitOn_intercalate (ks2.map escape) '.' (hdot ks2) (by simpa using hn2)
  have hmaps : ks1.map escape = ks2.map escape := by
    rw [← hsplit1, ← hsplit2]
    unfold pathOfKeys joinPath at hp
    rw [hp]
  have hu1 : (ks1.map escape).map unescape = ks1 := by
    rw [List.map_map]
    have : ∀ k ∈ ks1, (unescape ∘ escape) k = id k := by
      intro k hk
      exact unescape_escape (hf1 k hk)
    rw [List.map_congr_left this, List.map_id]
  have hu2 : (ks2.map escape).map unescape = ks2 := by
    rw [List.map_map]
    have : ∀ k ∈ ks2, (unescape ∘ escape) k = id k := by
      intro k hk
      exact unescape_escape (hf2 k hk)
    rw [List.map_congr_left this, List.map_id]
  rw [← hu1, ← hu2, hmaps]

/-- C8 witness: the amended injectivity applied at concrete key sequences. -/
theorem C8_escaped_paths_injective_witness :
    pathOfKeys [['a'], ['b']] = pathOfKeys [['a'], ['b']]
  ∧ ([['a'], ['b']] : List (List Char)) = [['a'], ['b']] :=
  ⟨rfl,
    C8_escaped_paths_injective [['a'], ['b']] [['a'], ['b']]
      (by decide) (by decide) (by decide) (by decide) rfl⟩

/-! ## Lemmas about `searchIds` -/

/-- The per-id `HAVING COUNT(*)` value: how many index rows of id `i`
satisfy at least one of the compiled conditions. -/
def matchCount (rows : List Row) (preds : List Pred) (i : Value) : Nat :=
  (rows.filter (rowMatches preds)).countP (fun (r : Row) => decide (r.id = i))

/-- How many rows of id `i` sit at path `p` (a document stores a queried
path "at most once" when this is at most 1). -/
def rowsAt (rows : List Row) (i : Value) (p : List Char) : Nat :=
  rows.countP (fun (r : Row) => decide (r.id = i) && decide (r.pos = p))

/-- Id `i` has a row satisfying the single condition `pr` at `pr`'s path. -/
def satOne (rows : List Row) (i : Value) (pr : Pred) : Bool :=
  rows.any (fun (r : Row) =>
    decide (r.id = i) && (decide (r.pos = pr.1) && pr.2 r.leaf))

/-- The flattened query pairs grouped by path, as the query compiler groups
them (`itertools.groupby` after sorting by path): each distinct path with
the predicates supplied for it. -/
def groupsOf (preds : List Pred) : List (List Char × List (QLeaf → Bool)) :=
  (dedupFirst (preds.map Prod.fst)).map
    (fun p => (p, (preds.filter (fun pr => decide (pr.1 = p))).map Prod.snd))

/-- Id `i` has a row at the group's path satisfying at least one of the
group's predicates. -/
def groupSat (rows : List Row) (i : Value) (g : List Char × List (QLeaf → Bool)) :
    Bool :=
  rows.any (fun (r : Row) =>
    decide (r.id = i) && (decide (r.pos = g.1) && g.2.any (fun f => f r.leaf)))

theorem mem_dedupSeen [DecidableEq α] : ∀ (l seen : List α) (x : α),
    x ∈ dedupSeen seen l ↔ x ∈ l ∧ x ∉ seen := by
  intro l
  induction l with
  | nil => intro seen x; simp [dedupSeen]
  | cons y ys ih =>
    intro seen x
    by_cases hy : y ∈ seen
    · rw [dedupSeen, if_pos hy, ih]
      constructor
      · rintro ⟨h1, h2⟩
        exact ⟨List.mem_cons_of_mem y h1, h2⟩
      · rintro ⟨h1, h2⟩
        rcases List.mem_cons.mp h1 with he | hm
        · exact absurd (he ▸ hy) h2
        · exact ⟨hm, h2⟩
    · rw [dedupSeen, if_neg hy]
      constructor
      · intro hx
        rcases List.mem_cons.mp hx with he | hm
        · exact ⟨he ▸ List.mem_cons_self y ys, he ▸ hy⟩
        · obtain ⟨h1, h2⟩ := (ih _ x).mp hm
          exact ⟨List.mem_cons_of_mem y h1,
            fun hs => h2 (List.mem_cons_of_mem y hs)⟩
      · rintro ⟨h1, h2⟩
        rcases List.mem_cons.mp h1 with he | hm
        · exact he ▸ List.mem_cons_self y _
        · by_cases hxy : x = y
          · exact hxy ▸ List.mem_cons_self y _
          · refine List.mem_cons_of_mem y ((ih _ x).mpr ⟨hm, fun hs => ?_⟩)
            rcases List.mem_cons.mp hs with h | h
            · exact hxy h
            · exact h2 h

theorem mem_dedupFirst [DecidableEq α] (l : List α) (x : α) :
    x ∈ dedupFirst l ↔ x ∈ l := by
  rw [dedupFirst, mem_dedupSeen]
  simp

theorem dedupSeen_of_nodup [DecidableEq α] : ∀ (l seen : List α), l.Nodup →
    (∀ x ∈ l, x ∉ seen) → dedupSeen seen l = l := by
  intro l
  induction l with
  | nil => intro seen _ _; rfl
  | cons y ys ih =>
    intro seen hnd hdisj
    rw [dedupSeen, if_neg (hdisj y (List.mem_cons_self y ys))]
    congr 1
    refine ih (y :: seen) (List.nodup_cons.mp hnd).2 ?_
    intro x hx hmem
    rcases List.mem_cons.mp hmem with he | hs
    · exact (List.nodup_cons.mp hnd).1 (he ▸ hx)
    · exact hdisj x (List.mem_cons_of_mem y hx) hs

theorem dedupFirst_of_nodup [DecidableEq α] {l : List α} (h : l.Nodup) :
    dedupFirst l = l :=
  dedupSeen_of_nodup l [] h (fun x _ hs => by cases hs)

theorem dedupSeen_skip_all [DecidableEq α] : ∀ (xs : List α) (seen ys : List α),
    (∀ x ∈ xs, x ∈ seen) → dedupSeen seen (xs ++ ys) = dedupSeen seen ys := by
  intro xs
  induction xs with
  | nil => intro seen ys _; rfl
  | cons x xs ih =>
    intro seen ys h
    rw [List.cons_append, dedupSeen, if_pos (h x (List.mem_cons_self x xs))]
    exact ih seen ys (fun z hz => h z (List.mem_cons_of_mem x hz))

theorem dedupSeen_congr [DecidableEq α] : ∀ (l seen1 seen2 : List α),
    (∀ x ∈ l, (x ∈ seen1 ↔ x ∈ seen2)) →
    dedupSeen seen1 l = dedupSeen seen2 l := by
  intro l
  induction l with
  | nil => intro _ _ _; rfl
  | cons y ys ih =>
    intro seen1 seen2 h
    have hy := h y (List.mem_cons_self y ys)
    by_cases h1 : y ∈ seen1
    · rw [dedupSeen, if_pos h1, dedupSeen, if_pos (hy.mp h1)]
      exact ih seen1 seen2 (fun x hx => h x (List.mem_cons_of_mem y hx))
    · rw [dedupSeen, if_neg h1, dedupSeen, if_neg (fun h2 => h1 (hy.mpr h2))]
      congr 1
      refine ih (y :: seen1) (y :: seen2) ?_
      intro x hx
      constructor
      · intro hm
        rcases List.mem_cons.mp hm with he | hs
        · exact he ▸ List.mem_cons_self y _
        · exact List.mem_cons_of_mem y ((h x (List.mem_cons_of_mem y hx)).mp hs)
      · intro hm
        rcases List.mem_cons.mp hm with he | hs
        · exact he ▸ List.mem_cons_self y _
        · exact List.mem_cons_of_mem y ((h x (List.mem_cons_of_mem y hx)).mpr hs)

/-- Deduplicating a nonempty block of one repeated id followed by rows not
containing that id emits the id once and continues. -/
theorem dedupFirst_append_block [DecidableEq α] (i : α) (xs ys : List α)
    (hne : xs ≠ []) (hall : ∀ x ∈ xs, x = i) (hys : i ∉ ys) :
    dedupFirst (xs ++ ys) = i :: dedupFirst ys := by
  cases xs with
  | nil => exact absurd rfl hne
  | cons x xs =>
    have hx : x = i := hall x (List.mem_cons_self x xs)
    subst hx
    rw [dedupFirst, List.cons_append, dedupSeen,
      if_neg (by intro h; cases h)]
    congr 1
    rw [dedupSeen_skip_all xs [x] ys (fun z hz => by
      rw [hall z (List.mem_cons_of_mem x hz)]
      exact List.mem_cons_self x [])]
    rw [show dedupFirst ys = dedupSeen [] ys from rfl]
    refine dedupSeen_congr ys [x] [] ?_
    intro z hz
    constructor
    · intro hm
      rcases List.mem_cons.mp hm with he | hs
      · exact absurd (he ▸ hz) hys
      · cases hs
    · intro hm
      cases hm

theorem countP_or_disjoint {α : Type} (l : List α) (p q : α → Bool)
    (h : ∀ x ∈ l, ¬(p x = true ∧ q x = true)) :
    l.countP (fun x => p x || q x) = l.countP p + l.countP q := by
  induction l with
  | nil => simp
  | cons a l ih =>
    simp only [List.countP_cons]
    rw [ih (fun x hx => h x (List.mem_cons_of_mem a hx))]
    have ha := h a (List.mem_cons_self a l)
    cases hp : p a <;> cases hq : q a <;>
      simp [hp, hq] at ha ⊢ <;> omega

/-- With a nonempty condition list and no id restriction, the compiled
query returns exactly the ids whose per-id count of rows satisfying some
condition equals the total number of conditions. -/
theorem searchIds_none_mem (rows : List Row) (preds : List Pred) (i : Value)
    (hne : preds ≠ []) :
    i ∈ searchIds rows none preds ↔ matchCount rows preds i = preds.length := by
  have hemp : preds.isEmpty = false := by
    cases preds with
    | nil => exact absurd rfl hne
    | cons _ _ => rfl
  simp only [searchIds, hemp, Bool.false_eq_true, if_false, List.mem_filter,
    mem_dedupFirst, List.mem_map, decide_eq_true_eq]
  constructor
  · rintro ⟨_, hc⟩
    exact hc
  · intro hc
    refine ⟨?_, hc⟩
    have hpos : 0 < (rows.filter (rowMatches preds)).countP
        (fun (r : Row) => decide (r.id = i)) := by
      rw [show (rows.filter (rowMatches preds)).countP
            (fun (r : Row) => decide (r.id = i)) = matchCount rows preds i from rfl,
        hc]
      exact List.length_pos.mpr hne
    obtain ⟨r, hr, hri⟩ := List.countP_pos_iff.mp hpos
    exact ⟨r, List.mem_filter.mp hr, of_decide_eq_true hri⟩

theorem filter_path_eq (preds : List Pred) (pr : Pred) (hmem : pr ∈ preds)
    (hnd : (preds.map Prod.fst).Nodup) :
    preds.filter (fun q => decide (q.1 = pr.1)) = [pr] := by
  induction preds with
  | nil => cases hmem
  | cons h t ih =>
    rw [List.map_cons, List.nodup_cons] at hnd
    rcases List.mem_cons.mp hmem with he | ht
    · subst he
      rw [List.filter_cons, if_pos (by simp)]
      have hnil : t.filter (fun q => decide (q.1 = pr.1)) = [] := by
        rw [List.filter_eq_nil_iff]
        intro q hq hdec
        exact hnd.1 (List.mem_map.mpr ⟨q, hq, (of_decide_eq_true hdec).symm ▸ rfl⟩)
      rw [hnil]
    · have hne : ¬(h.1 = pr.1) := fun he =>
        hnd.1 (he ▸ List.mem_map.mpr ⟨pr, ht, rfl⟩)
      rw [List.filter_cons, if_neg (by simp only [decide_eq_true_eq]; exact hne)]
      exact ih ht hnd.2

theorem groupsOf_of_nodup (preds : List Pred)
    (hnd : (preds.map Prod.fst).Nodup) :
    groupsOf preds = preds.map (fun pr => (pr.1, [pr.2])) := by
  unfold groupsOf
  rw [dedupFirst_of_nodup hnd, List.map_map]
  refine List.map_congr_left ?_
  intro pr hpr
  show (pr.1, (preds.filter (fun q => decide (q.1 = pr.1))).map Prod.snd) =
    (pr.1, [pr.2])
  rw [filter_path_eq preds pr hpr hnd]
  rfl

/-- Under singleton path groups, the per-id match count decomposes as the
number of satisfied conditions. -/
theorem matchCount_eq_countP_sat (rows : List Row) (i : Value) :
    ∀ (preds : List Pred), (preds.map Prod.fst).Nodup →
      (∀ p ∈ preds.map Prod.fst, rowsAt rows i p ≤ 1) →
      matchCount rows preds i = preds.countP (fun pr => satOne rows i pr) := by
  intro preds
  induction preds with
  | nil =>
    intro _ _
    simp [matchCount, rowMatches]
  | cons pr rest ih =>
    intro hnd honce
    rw [List.map_cons, List.nodup_cons] at hnd
    have hmc : matchCount rows (pr :: rest) i =
        rows.countP (fun (r : Row) =>
          (decide (r.id = i) && (decide (r.pos = pr.1) && pr.2 r.leaf)) ||
          (decide (r.id = i) && rowMatches rest r)) := by
      unfold matchCount
      rw [List.countP_filter]
      refine List.countP_congr ?_
      intro r _
      rw [show rowMatches (pr :: rest) r =
            ((decide (r.pos = pr.1) && pr.2 r.leaf) || rowMatches rest r) from by
          simp [rowMatches, List.any_cons],
        Bool.and_or_distrib_left]
    rw [hmc]
    rw [countP_or_disjoint _ _ _ ?disj]
    case disj =>
      intro r _ ⟨h1, h2⟩
      simp only [Bool.and_eq_true, decide_eq_true_eq] at h1 h2
      obtain ⟨q, hq, hqs⟩ := List.any_eq_true.mp h2.2
      simp only [Bool.and_eq_true, decide_eq_true_eq] at hqs
      exact hnd.1 (List.mem_map.mpr ⟨q, hq, by rw [← hqs.1, ← h1.2.1]⟩)
    have hfirst : rows.countP (fun (r : Row) =>
        decide (r.id = i) && (decide (r.pos = pr.1) && pr.2 r.leaf)) =
        if satOne rows i pr then 1 else 0 := by
      cases hsat : satOne rows i pr with
      | false =>
        simp only [if_false, Bool.false_eq_true]
        rw [List.countP_eq_zero]
        intro r hr hpred
        exact (List.any_eq_false.mp hsat r hr) hpred
      | true =>
        simp only [if_true]
        have hle : rows.countP (fun (r : Row) =>
            decide (r.id = i) && (decide (r.pos = pr.1) && pr.2 r.leaf)) ≤
            rowsAt rows i pr.1 := by
          refine List.countP_mono_left ?_
          intro r _ hp
          simp only [Bool.and_eq_true] at hp ⊢
          exact ⟨hp.1, hp.2.1⟩
        have hge : 0 < rows.countP (fun (r : Row) =>
            decide (r.id = i) && (decide (r.pos = pr.1) && pr.2 r.leaf)) := by
          obtain ⟨r, hr, hp⟩ := List.any_eq_true.mp hsat
          exact List.countP_pos_iff.mpr ⟨r, hr, hp⟩
        have h1 := honce pr.1 (List.mem_map.mpr ⟨pr, List.mem_cons_self pr rest, rfl⟩)
        omega
    rw [hfirst]
    have hrest : rows.countP (fun (r : Row) =>
        decide (r.id = i) && rowMatches rest r) = matchCount rows rest i := by
      unfold matchCount
      rw [List.countP_filter]
    have honce' : ∀ p ∈ rest.map Prod.fst, rowsAt rows i p ≤ 1 := by
      intro p hp
      exact honce p (by rw [List.map_cons]; exact List.mem_cons_of_mem _ hp)
    rw [hrest, ih hnd.2 honce', List.countP_cons]
    omega

theorem groupSat_singleton (rows : List Row) (i : Value) (pr : Pred) :
    groupSat rows i (pr.1, [pr.2]) = satOne rows i pr := by
  unfold groupSat satOne
  congr 1
  funext r
  simp only [List.any_cons, List.any_nil, Bool.or_false]

/-! ## Claim C1 -/

/-- C1: the compiled query returns exactly the ids whose count of index
rows satisfying some condition equals the total number of flattened query
pairs (first conjunct, unconditionally). The claim's "equivalent" reading —
for documents storing each queried path at most once, an id is returned iff
every path group has at least one satisfied predicate — additionally
requires every path group to be a singleton (pairwise-distinct queried
paths): the second conjunct proves it under that extra hypothesis, and
`C1_counterexample` refutes it without it. -/
theorem C1_search_having_count (rows : List Row) (preds : List Pred) (i : Value)
    (hne : preds ≠ []) :
    (i ∈ searchIds rows none preds ↔ matchCount rows preds i = preds.length)
  ∧ ((preds.map Prod.fst).Nodup →
      (∀ p ∈ preds.map Prod.fst, rowsAt rows i p ≤ 1) →
      (i ∈ searchIds rows none preds ↔
        ∀ g ∈ groupsOf preds, groupSat rows i g = true)) := by
  refine ⟨searchIds_none_mem rows preds i hne, ?_⟩
  intro hnd honce
  rw [searchIds_none_mem rows preds i hne,
    matchCount_eq_countP_sat rows i preds hnd honce,
    groupsOf_of_nodup preds hnd]
  constructor
  · intro h g hg
    obtain ⟨pr, hpr, hpr2⟩ := List.mem_map.mp hg
    rw [← hpr2, groupSat_singleton]
    exact List.countP_eq_length.mp h pr hpr
  · intro h
    rw [List.countP_eq_length]
    intro pr hpr
    rw [← groupSat_singleton]
    exact h _ (List.mem_map.mpr ⟨pr, hpr, rfl⟩)

/-- The document and query of `C1_counterexample`: the document has the
single leaf `a = 1` (so the queried path `a` occurs exactly once), and the
query repeats path `a` with `Equal(1) OR Equal(2)` — one path group with
two predicates. -/
def c1Rows : List Row := [⟨.leaf (.s ['d']), ['a'], .scalar (.i 1)⟩]

def c1Preds : List Pred :=
  [(['a'], fun lf => decide (lf = QLeaf.scalar (.i 1))),
   (['a'], fun lf => decide (lf = QLeaf.scalar (.i 2)))]

def c1Id : Value := .leaf (.s ['d'])

/-- C1 counterexample: with one path group holding two predicates, the id
satisfies every path group (its `a` row matches `Equal(1)`) and stores each
queried path at most once, yet the HAVING count (1 matching row against 2
total predicates) excludes it — the claim's "equivalently" clause fails. -/
theorem C1_counterexample :
    searchIds c1Rows none c1Preds = []
  ∧ (∀ g ∈ groupsOf c1Preds, groupSat c1Rows c1Id g = true)
  ∧ (∀ p ∈ c1Preds.map Prod.fst, rowsAt c1Rows c1Id p ≤ 1) := by
  refine ⟨?_, ?_, ?_⟩ <;> decide

/-- C1 witness: the theorem applied to the one-row document queried with
the single condition `a = Equal(1)`. -/
theorem C1_search_having_count_witness :
    c1Rows.map Row.id = [c1Id]
  ∧ ([(['a'], fun lf => decide (lf = QLeaf.scalar (Leaf.i 1)))].map Prod.fst).Nodup
  ∧ (c1Id ∈ searchIds c1Rows none
        [(['a'], fun lf => decide (lf = QLeaf.scalar (Leaf.i 1)))] ↔
      matchCount c1Rows
        [(['a'], fun lf => decide (lf = QLeaf.scalar (Leaf.i 1)))] c1Id = 1) :=
  ⟨rfl, by decide,
    (C1_search_having_count c1Rows
      [(['a'], fun lf => decide (lf = QLeaf.scalar (Leaf.i 1)))] c1Id
      (by intro h; cases h)).1⟩

/-! ## Lemmas about dict and store lookups -/

theorem lookupA_append (a b : Assoc) (k : List Char) :
    lookupA (a ++ b) k =
      match lookupA a k with
      | some v => some v
      | none => lookupA b k := by
  induction a with
  | nil => rfl
  | cons p rest ih =>
    cases p with
    | mk k0 v0 =>
      rw [List.cons_append]
      simp only [lookupA]
      by_cases hk : k0 = k
      · simp [hk]
      · simp [hk, ih]

theorem lookupA_some_mem : ∀ (m : Assoc) (k : List Char) (v : Value),
    lookupA m k = some v → (k, v) ∈ m := by
  intro m
  induction m with
  | nil => intro k v h; cases h
  | cons p rest ih =>
    intro k v h
    cases p with
    | mk k0 v0 =>
      rw [lookupA] at h
      split at h
      · rename_i he
        injection h with hv
        exact he ▸ hv ▸ List.mem_cons_self _ _
      · exact List.mem_cons_of_mem _ (ih k v h)

theorem setdefaultA_lookup_self (m : Assoc) (k : List Char) (v : Value) :
    lookupA (setdefaultA m k v).2 k = some (setdefaultA m k v).1 := by
  unfold setdefaultA
  cases h : lookupA m k with
  | some w => exact h
  | none =>
    show lookupA (m ++ [(k, v)]) k = some v
    rw [lookupA_append, h]
    show (if k = k then some v else lookupA [] k) = some v
    rw [if_pos rfl]

theorem setdefaultA_lookup_ne (m : Assoc) (k : List Char) (v : Value)
    (k' : List Char) (h : k' ≠ k) :
    lookupA (setdefaultA m k v).2 k' = lookupA m k' := by
  unfold setdefaultA
  cases hm : lookupA m k with
  | some w => rfl
  | none =>
    show lookupA (m ++ [(k, v)]) k' = lookupA m k'
    rw [lookupA_append]
    cases hm' : lookupA m k' with
    | some w => rfl
    | none =>
      show lookupA [(k, v)] k' = none
      show (if k = k' then some v else lookupA [] k') = none
      rw [if_neg (fun he => h he.symm)]
      rfl

theorem lookupS_none_not_mem (s : Store) (k : Value)
    (h : lookupS s k = none) : k ∉ s.map Prod.fst := by
  induction s with
  | nil => simp
  | cons p rest ih =>
    cases p with
    | mk k0 e0 =>
      rw [lookupS] at h
      split at h
      · cases h
      · rename_i hne
        rw [List.map_cons]
        intro hmem
        rcases List.mem_cons.mp hmem with he | hm
        · exact hne he.symm
        · exact ih h hm

theorem putS_absent (s : Store) (k : Value) (e : Assoc)
    (h : lookupS s k = none) : putS s k e = s ++ [(k, e)] := by
  unfold putS
  rw [h]
  rfl

theorem putS_present_lookup (s : Store) (k : Value) (e : Assoc)
    (h : (lookupS s k).isSome = true) : lookupS (putS s k e) k = some e := by
  unfold putS
  rw [if_pos h]
  induction s with
  | nil => cases h
  | cons p rest ih =>
    cases p with
    | mk k0 e0 =>
      by_cases hk : k0 = k
      · rw [List.map_cons, show (if (k0, e0).1 = k then (k, e) else (k0, e0)) =
            (k, e) from by rw [if_pos hk]]
        show (if k = k then some e else _) = some e
        rw [if_pos rfl]
      · rw [List.map_cons, show (if (k0, e0).1 = k then (k, e) else (k0, e0)) =
            (k0, e0) from by rw [if_neg hk]]
        rw [lookupS] at h ⊢
        rw [if_neg hk] at h ⊢
        exact ih h

theorem putS_present_keys (s : Store) (k : Value) (e : Assoc)
    (h : (lookupS s k).isSome = true) :
    (putS s k e).map Prod.fst = s.map Prod.fst := by
  unfold putS
  rw [if_pos h, List.map_map]
  refine List.map_congr_left ?_
  intro p _
  show ((if p.1 = k then (k, e) else p) : Value × Assoc).1 = p.1
  by_cases hk : p.1 = k
  · rw [if_pos hk, hk]
  · rw [if_neg hk]

theorem lookupS_mem_nodup : ∀ (s : Store), (s.map Prod.fst).Nodup →
    ∀ p ∈ s, lookupS s p.1 = some p.2 := by
  intro s
  induction s with
  | nil => intro _ p hp; cases hp
  | cons q rest ih =>
    intro hnd p hp
    rw [List.map_cons, List.nodup_cons] at hnd
    rcases List.mem_cons.mp hp with he | hm
    · subst he
      cases p with
      | mk k0 e0 =>
        show (if k0 = k0 then some e0 else _) = some e0
        rw [if_pos rfl]
    · cases q with
      | mk k0 e0 =>
        have hne : k0 ≠ p.1 := fun he =>
          hnd.1 (he ▸ List.mem_map.mpr ⟨p, hm, rfl⟩)
        show (if k0 = p.1 then some e0 else lookupS rest p.1) = some p.2
        rw [if_neg hne]
        exact ih hnd.2 p hm

/-! ## The index/store synchronisation invariant -/

theorem indexRows_id (e : Assoc) :
    ∀ r ∈ indexRows e, r.id = (lookupA e idKey).getD (Value.leaf (.s [])) := by
  intro r hr
  obtain ⟨pr, _, hsome⟩ := List.mem_filterMap.mp hr
  split at hsome
  · cases hsome
  · injection hsome with he
    rw [← he]

theorem flattenObj_mem_of : ∀ (fs : Assoc) (k : List Char) (v : Value)
    (keys : List (List Char)) (pr : List Char × QLeaf),
    (k, v) ∈ fs → pr ∈ flatten v (keys ++ [escape k]) → pr ∈ flattenObj fs keys := by
  intro fs
  induction fs with
  | nil => intro _ _ _ _ h; cases h
  | cons q rest ih =>
    intro k v keys pr hmem hpr
    rcases List.mem_cons.mp hmem with he | hm
    · cases q with
      | mk k0 v0 =>
        injection he with h1 h2
        subst h1; subst h2
        rw [show flattenObj ((k, v) :: rest) keys =
          flatten v (keys ++ [escape k]) ++ flattenObj rest keys from rfl]
        exact List.mem_append.mpr (Or.inl hpr)
    · cases q with
      | mk k0 v0 =>
        rw [show flattenObj ((k0, v0) :: rest) keys =
          flatten v0 (keys ++ [escape k0]) ++ flattenObj rest keys from rfl]
        exact List.mem_append.mpr (Or.inr (ih k v keys pr hm hpr))

theorem mem_indexRows_of_pair (e : Assoc) (pr : List Char × QLeaf)
    (hpr : pr ∈ flattenObj e []) (hne : ¬(pr.1 = idKey)) :
    (⟨(lookupA e idKey).getD (Value.leaf (.s [])), pr.1, pr.2⟩ : Row) ∈
      indexRows e := by
  refine List.mem_filterMap.mpr ⟨pr, hpr, ?_⟩
  rw [if_neg hne]

theorem indexRows_ne_nil (e : Assoc) (uv : Value)
    (h : lookupA e updKey = some uv) (hv : validUpdated uv = true) :
    indexRows e ≠ [] := by
  have hmem : (updKey, uv) ∈ e := lookupA_some_mem e updKey uv h
  have hpair : ∃ l : Leaf, (updKey, QLeaf.scalar l) ∈ flattenObj e [] := by
    cases uv with
    | dt t =>
      refine ⟨.s (isoOfDateTime t), flattenObj_mem_of e updKey _ [] _ hmem ?_⟩
      rw [show flatten (.dt t) ([] ++ [escape updKey]) =
        [(joinPath [escape updKey], .scalar (.s (isoOfDateTime t)))] from rfl,
        show joinPath [escape updKey] = updKey from by decide]
      exact List.mem_singleton.mpr rfl
    | leaf l =>
      refine ⟨l, flattenObj_mem_of e updKey _ [] _ hmem ?_⟩
      rw [show flatten (.leaf l) ([] ++ [escape updKey]) =
        [(joinPath [escape updKey], .scalar l)] from rfl,
        show joinPath [escape updKey] = updKey from by decide]
      exact List.mem_singleton.mpr rfl
    | arr xs => cases hv
    | obj fs => cases hv
    | op k ps => cases hv
  obtain ⟨l, hp⟩ := hpair
  intro hnil
  have hrow := mem_indexRows_of_pair e (updKey, QLeaf.scalar l) hp
    (show ¬(updKey = idKey) from by decide)
  rw [hnil] at hrow
  cases hrow

/-- The §3 FlatRow invariant plus bookkeeping facts maintained by the API:
the `flat` table is exactly what re-flattening the store produces, every
entry's rows carry the entry's store key, every entry has at least one row,
and store keys are unique. -/
def Inv (st : State) : Prop :=
  st.flat = regen st.store
  ∧ (∀ p ∈ st.store, (∀ r ∈ indexRows p.2, r.id = p.1) ∧ indexRows p.2 ≠ [])
  ∧ (st.store.map Prod.fst).Nodup

theorem regen_append (a b : Store) : regen (a ++ b) = regen a ++ regen b := by
  unfold regen
  rw [List.flatMap_append]

theorem reachable_inv : ∀ {st : State}, Reachable st → Inv st := by
  intro st h
  induction h with
  | empty => exact ⟨rfl, fun p hp => absurd hp (List.not_mem_nil p), List.nodup_nil⟩
  | create_step st entry genId now st' ret hre hfresh hok ih =>
    unfold create at hok
    split at hok
    case isFalse => cases hok
    case isTrue hval =>
      injection hok with hok
      injection hok with hst hret
      subst hst
      have hput : putS st.store (createdId entry genId) (entryFull entry genId now).2 =
          st.store ++ [(createdId entry genId, (entryFull entry genId now).2)] :=
        putS_absent _ _ _ hfresh
      have hlook : lookupA (entryFull entry genId now).2 idKey =
          some (createdId entry genId) := by
        unfold entryFull createdId
        rw [setdefaultA_lookup_ne _ _ _ _ (by decide : idKey ≠ updKey)]
        exact setdefaultA_lookup_self entry idKey (.leaf (.s genId))
      refine ⟨?_, ?_, ?_⟩
      · show st.flat ++ indexRows (entryFull entry genId now).2 = _
        rw [hput, regen_append, ← ih.1]
        rw [show regen [(createdId entry genId, (entryFull entry genId now).2)] =
          indexRows (entryFull entry genId now).2 from by
            unfold regen
            rw [List.flatMap_cons, List.flatMap_nil, List.append_nil]]
      · intro p hp
        rw [hput] at hp
        rcases List.mem_append.mp hp with hold | hnew
        · exact ih.2.1 p hold
        · rw [List.mem_singleton] at hnew
          subst hnew
          constructor
          · intro r hr
            rw [indexRows_id _ r hr, hlook]
            rfl
          · refine indexRows_ne_nil _ (entryFull entry genId now).1 ?_ hval
            exact setdefaultA_lookup_self _ updKey (.dt now)
      · rw [hput, List.map_append]
        refine List.Nodup.append ih.2.2 (List.nodup_singleton _) ?_
        intro x hx hx2
        rw [show List.map Prod.fst [(createdId entry genId,
          (entryFull entry genId now).2)] = [createdId entry genId] from rfl,
          List.mem_singleton] at hx2
        exact lookupS_none_not_mem st.store _ hfresh (hx2 ▸ hx)
  | delete_step st key st' hre hok ih =>
    unfold delete at hok
    split at hok
    case isFalse => cases hok
    case isTrue hsome =>
      injection hok with hok
      subst hok
      refine ⟨?_, ?_, ?_⟩
      · show st.flat.filter _ = regen (eraseS st.store key)
        rw [ih.1]
        unfold eraseS
        have : ∀ (s : Store),
            (∀ p ∈ s, ∀ r ∈ indexRows p.2, r.id = p.1) →
            (regen s).filter (fun r => decide (r.id ≠ key)) =
              regen (s.filter (fun p => decide (p.1 ≠ key))) := by
          intro s
          induction s with
          | nil => intro _; rfl
          | cons p rest ihs =>
            intro hprop
            rw [show regen (p :: rest) = indexRows p.2 ++ regen rest from by
              unfold regen; rw [List.flatMap_cons]]
            rw [List.filter_append, List.filter_cons]
            by_cases hk : p.1 = key
            · rw [if_neg (by simp [hk])]
              rw [show (indexRows p.2).filter (fun r => decide (r.id ≠ key)) = []
                from by
                  rw [List.filter_eq_nil_iff]
                  intro r hr
                  simp only [decide_not, Bool.not_eq_true', decide_eq_false_iff_not,
                    not_not]
                  rw [hprop p (List.mem_cons_self p rest) r hr, hk]]
              rw [List.nil_append]
              exact ihs (fun q hq => hprop q (List.mem_cons_of_mem p hq))
            · rw [if_pos (by simp [hk])]
              rw [show (indexRows p.2).filter (fun r => decide (r.id ≠ key)) =
                indexRows p.2 from by
                  rw [List.filter_eq_self]
                  intro r hr
                  simp only [decide_not, Bool.not_eq_true', decide_eq_false_iff_not]
                  rw [hprop p (List.mem_cons_self p rest) r hr]
                  exact hk]
              rw [show regen (p :: rest.filter (fun p => decide (p.1 ≠ key))) =
                indexRows p.2 ++ regen (rest.filter (fun p => decide (p.1 ≠ key)))
                from by unfold regen; rw [List.flatMap_cons]]
              rw [ihs (fun q hq => hprop q (List.mem_cons_of_mem p hq))]
        exact this st.store (fun p hp => (ih.2.1 p hp).1)
      · intro p hp
        exact ih.2.1 p (List.mem_of_mem_filter hp)
      · exact List.Nodup.sublist (List.Sublist.map Prod.fst (List.filter_sublist _))
          ih.2.2

/-- Under the invariant, scanning the `flat` table and deduplicating ids in
first-occurrence order yields exactly the store's keys, in store order. -/
theorem dedup_regen : ∀ (s : Store),
    (∀ p ∈ s, (∀ r ∈ indexRows p.2, r.id = p.1) ∧ indexRows p.2 ≠ []) →
    (s.map Prod.fst).Nodup →
    dedupFirst ((regen s).map Row.id) = s.map Prod.fst := by
  intro s
  induction s with
  | nil => intro _ _; rfl
  | cons p rest ih =>
    intro hp hnd
    rw [show regen (p :: rest) = indexRows p.2 ++ regen rest from by
      unfold regen; rw [List.flatMap_cons]]
    rw [List.map_append]
    have hprop := hp p (List.mem_cons_self p rest)
    rw [dedupFirst_append_block p.1 _ _ ?ne ?all ?nmem]
    case ne =>
      intro h
      exact hprop.2 (List.map_eq_nil_iff.mp h)
    case all =>
      intro x hx
      obtain ⟨r, hr, hrx⟩ := List.mem_map.mp hx
      rw [← hrx]
      exact hprop.1 r hr
    case nmem =>
      intro hmem
      obtain ⟨r, hr, hrx⟩ := List.mem_map.mp hmem
      obtain ⟨q, hq, hrq⟩ := List.mem_flatMap.mp hr
      have hrid : r.id = q.1 := (hp q (List.mem_cons_of_mem p hq)).1 r hrq
      have hkey : p.1 ∈ rest.map Prod.fst := by
        rw [← hrx, hrid]
        exact List.mem_map.mpr ⟨q, hq, rfl⟩
      rw [List.map_cons, List.nodup_cons] at hnd
      exact hnd.1 hkey
    rw [List.map_cons]
    congr 1
    refine ih (fun q hq => hp q (List.mem_cons_of_mem p hq)) ?_
    rw [List.map_cons, List.nodup_cons] at hnd
    exact hnd.2

/-- Materializing a list of present ids yields their entries in order. -/
theorem materialize_of_entries : ∀ (l : Store) (s : Store),
    (∀ p ∈ l, lookupS s p.1 = some p.2) →
    materialize s (l.map Prod.fst) = .ok (l.map Prod.snd) := by
  intro l s
  induction l with
  | nil => intro _; rfl
  | cons p rest ih =>
    intro h
    rw [List.map_cons, materialize, h p (List.mem_cons_self p rest),
      ih (fun q hq => h q (List.mem_cons_of_mem p hq))]
    rfl

/-! ## Claim C4 -/

/-- C4: on any state reachable through the API (creates with fresh ids and
deletes), searching with the empty query key returns every stored entry —
the candidate ids are exactly the store's keys (every created entry has at
least its `__updated__` index row, and index rows exist only for stored
ids), and materialization resolves each of them. -/
theorem C4_empty_search_all (st : State)
    (opSem : OpKind → List Value → QLeaf → Bool) (hr : Reachable st) :
    searchIds st.flat none [] = st.store.map Prod.fst
  ∧ (searchFull opSem st [] none 0).1 = .ok (st.store.map Prod.snd) := by
  have hInv := reachable_inv hr
  have hids : searchIds st.flat none [] = st.store.map Prod.fst := by
    show dedupFirst (st.flat.map Row.id) = st.store.map Prod.fst
    rw [hInv.1]
    exact dedup_regen st.store hInv.2.1 hInv.2.2
  refine ⟨hids, ?_⟩
  have hred : (searchFull opSem st [] none 0).1 =
      materialize st.store (searchIds st.flat none []) := by
    simp [searchFull, lookupA, eraseKeyA, flattenObj, paginate]
  rw [hred, hids]
  exact materialize_of_entries st.store st.store
    (lookupS_mem_nodup st.store hInv.2.2)

/-- A concrete reachable state for witnesses: one entry `{"a": 1}` created
with id `"x"`. -/
def w4Entry : Assoc := [(['a'], .leaf (.i 1))]

def w4Now : DateTime := ⟨2020, 1, 1, 0, 0, 0⟩

def w4St : State :=
  ((create ⟨[], []⟩ w4Entry ['x'] w4Now).toOption.getD (⟨[], []⟩, [])).1

theorem w4St_reachable : Reachable w4St :=
  Reachable.create_step ⟨[], []⟩ w4Entry ['x'] w4Now w4St
    ((create ⟨[], []⟩ w4Entry ['x'] w4Now).toOption.getD (⟨[], []⟩, [])).2
    Reachable.empty rfl rfl

/-- C4 witness: the theorem applied to the one-entry reachable state. -/
theorem C4_empty_search_all_witness :
    searchIds w4St.flat none [] = w4St.store.map Prod.fst
  ∧ (searchFull opSemNone w4St [] none 0).1 = .ok (w4St.store.map Prod.snd) :=
  C4_empty_search_all w4St opSemNone w4St_reachable

/-! ## Claim C2 -/

/-- A total order rank for `DateTime` (lexicographic in its fields). -/
def dtRank (t : DateTime) : Nat :=
  ((((t.year * 13 + t.month) * 32 + t.day) * 25 + t.hour) * 61 + t.minute) * 62
    + t.second

/-- The rank of an entry's `__updated__` value (0 when absent or not a
datetime). -/
def updRank (e : Assoc) : Nat :=
  match lookupA e updKey with
  | some (.dt t) => dtRank t
  | _ => 0

/-- The ordering the claim asserts: each entry's `updated` is at least the
next one's. -/
def sortedByUpdatedDesc (es : List Assoc) : Prop :=
  es.Pairwise (fun a b => updRank b ≤ updRank a)

/-- Two entries created in ascending `updated` order. -/
def c2E1 : Assoc := [(['a'], .leaf (.i 1))]

def c2E2 : Assoc := [(['b'], .leaf (.i 2))]

def c2T1 : DateTime := ⟨2020, 1, 1, 0, 0, 0⟩

def c2T2 : DateTime := ⟨2021, 1, 1, 0, 0, 0⟩

def c2St1 : State :=
  ((create ⟨[], []⟩ c2E1 ['x'] c2T1).toOption.getD (⟨[], []⟩, [])).1

def c2St2 : State :=
  ((create c2St1 c2E2 ['y'] c2T2).toOption.getD (⟨[], []⟩, [])).1

def c2Res : List Assoc :=
  ((searchFull opSemNone c2St2 [] none 0).1.toOption.getD [])

/-- C2 counterexample: the `ORDER BY updated DESC` line is commented out in
this `search`, so a search returns ids in index scan order — here the
entry updated in 2020 strictly before the one updated in 2021, which is
not descending. -/
theorem C2_counterexample :
    (searchFull opSemNone c2St2 [] none 0).1 = .ok c2Res
  ∧ c2Res.map updRank = [dtRank c2T1, dtRank c2T2]
  ∧ dtRank c2T1 < dtRank c2T2
  ∧ ¬ sortedByUpdatedDesc c2Res := by
  refine ⟨rfl, rfl, by decide, ?_⟩
  intro h
  rw [show c2Res = [((create ⟨[], []⟩ c2E1 ['x'] c2T1).toOption.getD
      (⟨[], []⟩, [])).2, ((create c2St1 c2E2 ['y'] c2T2).toOption.getD
      (⟨[], []⟩, [])).2] from rfl] at h
  have h2 := List.rel_of_pairwise_cons h (List.mem_singleton.mpr rfl)
  revert h2
  decide

/-- C2 (amended): `search` applies no ordering at all (the `ORDER BY
updated DESC` clause is commented out): for reachable states, an empty
query with `LIMIT n OFFSET k` returns the stored entries in store
(insertion) order, skipping `k` then keeping `n`, each materialized via a
store lookup. -/
theorem C2_search_no_order_paginates (st : State)
    (opSem : OpKind → List Value → QLeaf → Bool) (hr : Reachable st)
    (n k : Nat) :
    (searchFull opSem st [] (some n) k).1 =
      .ok (((st.store.map Prod.snd).drop k).take n) := by
  have hInv := reachable_inv hr
  have hids : searchIds st.flat none [] = st.store.map Prod.fst := by
    show dedupFirst (st.flat.map Row.id) = st.store.map Prod.fst
    rw [hInv.1]
    exact dedup_regen st.store hInv.2.1 hInv.2.2
  have hred : (searchFull opSem st [] (some n) k).1 =
      materialize st.store (((searchIds st.flat none []).drop k).take n) := by
    simp [searchFull, lookupA, eraseKeyA, flattenObj, paginate]
  rw [hred, hids, ← List.map_drop, ← List.map_take]
  rw [materialize_of_entries ((st.store.drop k).take n) st.store ?present]
  case present =>
    intro p hp
    exact lookupS_mem_nodup st.store hInv.2.2 p
      (List.mem_of_mem_drop (List.mem_of_mem_take hp))
  rw [List.map_take, List.map_drop]

/-- C2 witness: pagination applied to the one-entry reachable state. -/
theorem C2_search_no_order_paginates_witness :
    (searchFull opSemNone w4St [] (some 1) 0).1 =
      .ok (((w4St.store.map Prod.snd).drop 0).take 1) :=
  C2_search_no_order_paginates w4St opSemNone w4St_reachable 1 0

/-! ## Claim C9 -/

/-- C9: `reindex` twice produces the very same state as `reindex` once
(hence identical search results after each run, unconditionally); and on
every reachable state — where the §3 invariant `flat = regen store` holds —
`reindex` is the identity, so every search, of any query and pagination,
answers exactly as before the first `reindex`. -/
theorem C9_reindex_idempotent (st : State) :
    reindex (reindex st) = reindex st
  ∧ (Reachable st → reindex st = st ∧
      ∀ (opSem : OpKind → List Value → QLeaf → Bool) (obj : Assoc)
        (size : Option Nat) (off : Nat),
        searchFull opSem (reindex st) obj size off =
          searchFull opSem st obj size off) := by
  constructor
  · rfl
  · intro hr
    have he : reindex st = st := by
      cases st with
      | mk store flat =>
        unfold reindex
        have hInv := reachable_inv hr
        simp only [State.mk.injEq, true_and]
        exact hInv.1.symm
    exact ⟨he, fun opSem obj size off => by rw [he]⟩

/-- C9 witness: applied to the one-entry reachable state. -/
theorem C9_reindex_idempotent_witness :
    reindex w4St = w4St :=
  ((C9_reindex_idempotent w4St).2 w4St_reachable).1

/-! ## Claim C3 -/

/-- Two entries carrying the same caller-supplied id `"x"`. -/
def c3E1 : Assoc := [(idKey, .leaf (.s ['x'])), (['a'], .leaf (.i 1))]

def c3E2 : Assoc := [(idKey, .leaf (.s ['x'])), (['a'], .leaf (.i 2))]

def c3Now : DateTime := ⟨2020, 1, 1, 0, 0, 0⟩

def c3St1 : State :=
  ((create ⟨[], []⟩ c3E1 ['g'] c3Now).toOption.getD (⟨[], []⟩, [])).1

def c3Out : State × Assoc :=
  (create c3St1 c3E2 ['h'] c3Now).toOption.getD (⟨[], []⟩, [])

/-- C3 counterexample: `create` with an already-present caller-supplied id
does not fail and does not leave the stored entry unchanged — it succeeds
and replaces the entry (and appends that entry's rows to the index on top
of the stale ones). -/
theorem C3_counterexample :
    (lookupS c3St1.store (.leaf (.s ['x']))).isSome = true
  ∧ create c3St1 c3E2 ['h'] c3Now = .ok c3Out
  ∧ lookupS c3Out.1.store (.leaf (.s ['x'])) ≠
      lookupS c3St1.store (.leaf (.s ['x']))
  ∧ c3Out.1.flat = c3St1.flat ++ indexRows c3Out.2 := by
  refine ⟨rfl, rfl, ?_, rfl⟩
  decide

/-- C3 (amended): in this `EntryManager`, `create` with an id that is
already present raises no `Conflict`: whenever it returns at all (its only
failure mode is timestamp validation), it overwrites the stored entry in
place under that id — key set unchanged — and appends the fresh entry's
index rows after the existing ones. (The 0.3 sqlite backend's
`create_entry`, by contrast, hits the `store.id` primary key, raises
`IntegrityError` and rolls back.) -/
theorem C3_create_overwrites (st : State) (entry : Assoc) (genId : List Char)
    (now : DateTime) (st' : State) (ret : Assoc)
    (hok : create st entry genId now = .ok (st', ret))
    (hold : (lookupS st.store (createdId entry genId)).isSome = true) :
    lookupS st'.store (createdId entry genId) = some ret
  ∧ st'.flat = st.flat ++ indexRows ret
  ∧ st'.store.map Prod.fst = st.store.map Prod.fst := by
  unfold create at hok
  split at hok
  case isFalse => cases hok
  case isTrue hval =>
    injection hok with hok
    injection hok with hst hret
    subst hst
    subst hret
    exact ⟨putS_present_lookup st.store _ _ hold, rfl,
      putS_present_keys st.store _ _ hold⟩

/-- C3 witness: the amended behaviour at the concrete colliding create. -/
theorem C3_create_overwrites_witness :
    lookupS c3Out.1.store (createdId c3E2 ['h']) = some c3Out.2
  ∧ c3Out.1.flat = c3St1.flat ++ indexRows c3Out.2
  ∧ c3Out.1.store.map Prod.fst = c3St1.store.map Prod.fst :=
  C3_create_overwrites c3St1 c3E2 ['h'] c3Now c3Out.1 c3Out.2 rfl rfl

/-! ## Claim C5 -/

/-- A state whose index holds a row for id `"x"` while the document store
is empty (the index/store divergence §7 describes). -/
def c5St : State :=
  ⟨[], [⟨.leaf (.s ['x']), ['a'], .scalar (.i 1)⟩]⟩

/-- C5: on an index row whose id has no document-store entry, `search` does
*not* exclude the candidate — the materializing list comprehension
`self.store[row[0]]` raises `KeyError` and the whole query fails. The spec
requires the miss to be tolerated, so this is a bug in the code. -/
theorem C5_stale_candidate_raises :
    (searchFull opSemNone c5St [] none 0).1 = .error Err.keyError := rfl

/-! ## Claim C10 -/

theorem lookupA_eraseKey_self : ∀ (m : Assoc) (k : List Char),
    lookupA (eraseKeyA m k) k = none := by
  intro m k
  induction m with
  | nil => rfl
  | cons p rest ih =>
    cases p with
    | mk k0 v0 =>
      unfold eraseKeyA at ih ⊢
      rw [List.filter_cons]
      by_cases hk : k0 = k
      · rw [if_neg (by simp [hk])]
        exact ih
      · rw [if_pos (by simp [hk])]
        show (if k0 = k then some v0 else _) = none
        rw [if_neg hk]
        exact ih

theorem lookupA_eraseKey_ne : ∀ (m : Assoc) (k k' : List Char), k' ≠ k →
    lookupA (eraseKeyA m k) k' = lookupA m k' := by
  intro m k k' h
  induction m with
  | nil => rfl
  | cons p rest ih =>
    cases p with
    | mk k0 v0 =>
      unfold eraseKeyA at ih ⊢
      rw [List.filter_cons]
      by_cases hk : k0 = k
      · rw [if_neg (by simp [hk])]
        rw [show lookupA ((k0, v0) :: rest) k' =
          lookupA rest k' from by
            show (if k0 = k' then some v0 else _) = _
            rw [if_neg (fun he => h (by rw [← he]; exact hk))]]
        exact ih
      · rw [if_pos (by simp [hk])]
        show (if k0 = k' then some v0 else _) =
          (if k0 = k' then some v0 else lookupA rest k')
        by_cases hk' : k0 = k'
        · rw [if_pos hk', if_pos hk']
        · rw [if_neg hk', if_neg hk']
          exact ih

theorem normF_lookup : ∀ (m : Assoc) (k : List Char),
    lookupA (normF m) k = (lookupA m k).map normV := by
  intro m k
  induction m with
  | nil => rfl
  | cons p rest ih =>
    cases p with
    | mk k0 v0 =>
      rw [show normF ((k0, v0) :: rest) = (k0, normV v0) :: normF rest from rfl]
      show (if k0 = k then some (normV v0) else lookupA (normF rest) k) = _
      by_cases hk : k0 = k
      · rw [if_pos hk, show lookupA ((k0, v0) :: rest) k = some v0 from by
          show (if k0 = k then some v0 else _) = some v0
          rw [if_pos hk]]
        rfl
      · rw [if_neg hk, show lookupA ((k0, v0) :: rest) k = lookupA rest k from by
          show (if k0 = k then some v0 else _) = _
          rw [if_neg hk]]
        exact ih

theorem dt_not_mem_map_iso (l : List Value) (d : DateTime) :
    Value.dt d ∉ l.map datetimeToIso := by
  intro hmem
  obtain ⟨x, _, he⟩ := List.mem_map.mp hmem
  cases x <;> simp [datetimeToIso] at he

/-- Every operator pair yielded by `flatten` has already had its operands
passed through `datetime_to_iso`: no datetime survives among them. -/
theorem flatten_oper_no_dt :
    ∀ (v : Value) (keys : List (List Char)), ∀ (path : List Char) (k : OpKind)
      (ps : List Value), (path, QLeaf.oper k ps) ∈ flatten v keys →
      ∀ (d : DateTime), Value.dt d ∉ ps :=
  flatten.induct
    (fun v keys => ∀ path k ps, (path, QLeaf.oper k ps) ∈ flatten v keys →
      ∀ d, Value.dt d ∉ ps)
    (fun fs keys => ∀ path k ps, (path, QLeaf.oper k ps) ∈ flattenObj fs keys →
      ∀ d, Value.dt d ∉ ps)
    (fun xs keys => ∀ path k ps, (path, QLeaf.oper k ps) ∈ flattenList xs keys →
      ∀ d, Value.dt d ∉ ps)
    (fun _ _ ih => by simpa [flatten] using ih)
    (fun _ _ ih => by simpa [flatten] using ih)
    (fun t keys => by
      intro path k ps hmem d
      simp [flatten] at hmem)
    (fun k0 ps0 keys => by
      intro path k ps hmem d
      simp only [flatten, List.mem_singleton, Prod.mk.injEq] at hmem
      obtain ⟨h1, h2⟩ := hmem
      injection h2 with h3 h4
      rw [h4]
      exact dt_not_mem_map_iso ps0 d)
    (fun l keys => by
      intro path k ps hmem d
      simp [flatten] at hmem)
    (fun _ => by intro path k ps hmem d; cases hmem)
    (fun x xs keys ih1 ih2 => by
      intro path k ps hmem d
      rw [show flattenList (x :: xs) keys =
        flatten x keys ++ flattenList xs keys from rfl] at hmem
      rcases List.mem_append.mp hmem with h | h
      · exact ih1 path k ps h d
      · exact ih2 path k ps h d)
    (fun _ => by intro path k ps hmem d; cases hmem)
    (fun k0 v fs keys ih1 ih2 => by
      intro path k ps hmem d
      rw [show flattenObj ((k0, v) :: fs) keys =
        flatten v (keys ++ [escape k0]) ++ flattenObj fs keys from rfl] at hmem
      rcases List.mem_append.mp hmem with h | h
      · exact ih1 path k ps h d
      · exact ih2 path k ps h d)

/-- C10: `search` does mutate its caller's query key. Popping `__id__`
really removes it (the dict after the call — the second component of
`searchFull` — lacks the key and differs from the input); every remaining
top-level operator value has its operand list rewritten through
`datetime_to_iso`, which turns a datetime operand into its ISO-8601
string; and no operator pair yielded by flattening the query still carries
a datetime operand. -/
theorem C10_search_mutates_query
    (opSem : OpKind → List Value → QLeaf → Bool) (st : State) (obj : Assoc)
    (size : Option Nat) (off : Nat) :
    ((lookupA obj idKey).isSome = true →
        lookupA (searchFull opSem st obj size off).2 idKey = none
      ∧ (searchFull opSem st obj size off).2 ≠ obj)
  ∧ (∀ (key : List Char) (k : OpKind) (ps : List Value),
        key ≠ idKey → lookupA obj key = some (.op k ps) →
        lookupA (searchFull opSem st obj size off).2 key =
          some (.op k (ps.map datetimeToIso)))
  ∧ (∀ (d : DateTime), datetimeToIso (.dt d) = .leaf (.s (isoOfDateTime d)))
  ∧ (∀ (path : List Char) (k : OpKind) (ps : List Value),
        (path, QLeaf.oper k ps) ∈ flatten (.obj (eraseKeyA obj idKey)) [] →
        ∀ (d : DateTime), Value.dt d ∉ ps) := by
  have hsnd : (searchFull opSem st obj size off).2 =
      normF (eraseKeyA obj idKey) := rfl
  refine ⟨?_, ?_, fun d => rfl, ?_⟩
  · intro hsome
    have hnone : lookupA (searchFull opSem st obj size off).2 idKey = none := by
      rw [hsnd, normF_lookup, lookupA_eraseKey_self]
      rfl
    refine ⟨hnone, fun he => ?_⟩
    rw [← he, hnone] at hsome
    cases hsome
  · intro key k ps hne hval
    rw [hsnd, normF_lookup, lookupA_eraseKey_ne obj idKey key hne, hval]
    rfl
  · intro path k ps hmem d
    exact flatten_oper_no_dt (.obj (eraseKeyA obj idKey)) [] path k ps hmem d

/-- C10 witness: a query dict carrying `__id__` and a `GreaterThan`
operator with a datetime operand, mutated as the theorem states. -/
theorem C10_search_mutates_query_witness :
    (lookupA [(idKey, Value.leaf (.s ['x'])),
        (['b'], Value.op .gt [.dt ⟨2020, 1, 1, 0, 0, 0⟩])] idKey).isSome = true
  ∧ lookupA (searchFull opSemNone ⟨[], []⟩
      [(idKey, Value.leaf (.s ['x'])),
        (['b'], Value.op .gt [.dt ⟨2020, 1, 1, 0, 0, 0⟩])] none 0).2 idKey = none
  ∧ lookupA (searchFull opSemNone ⟨[], []⟩
      [(idKey, Value.leaf (.s ['x'])),
        (['b'], Value.op .gt [.dt ⟨2020, 1, 1, 0, 0, 0⟩])] none 0).2 ['b'] =
      some (.op .gt ([Value.dt ⟨2020, 1, 1, 0, 0, 0⟩].map datetimeToIso)) :=
  ⟨rfl,
    ((C10_search_mutates_query opSemNone ⟨[], []⟩
      [(idKey, Value.leaf (.s ['x'])),
        (['b'], Value.op .gt [.dt ⟨2020, 1, 1, 0, 0, 0⟩])] none 0).1 rfl).1,
    (C10_search_mutates_query opSemNone ⟨[], []⟩
      [(idKey, Value.leaf (.s ['x'])),
        (['b'], Value.op .gt [.dt ⟨2020, 1, 1, 0, 0, 0⟩])] none 0).2.1
      ['b'] .gt [.dt ⟨2020, 1, 1, 0, 0, 0⟩] (by decide) rfl⟩

end Jsonstore
